import Mathlib

/-!
Shallow embedding of the live-data reconciliation layer of the
Forex-Dashboard single-page app (`src/app/page.tsx`).

Numeric JS values (prices, volumes, profits) are modelled as exact
rationals `Rat`; `Number(...)` applied to an already-numeric value is the
identity and is therefore dropped. TS optional fields (`field?:`) and the
TS `null` / `undefined` values are modelled with `Option`. JS object
spread `... patch` is modelled field by field: a field present in the
patch overwrites, an absent one keeps the old value. JS truthiness tests
(`x || y`, `!x`) are modelled faithfully: the number `0` and `undefined`
are falsy.
-/

namespace ForexDashboard

/-- Direction value of the TS string unions `"up" | "down"` used by
`priceChange` and `tickDirection` (the `null` alternative is `Option`). -/
inductive Dir where
  | up
  | down
deriving DecidableEq, Repr

/-- TS `interface AccountInfo` (page.tsx lines 8-14): all fields optional. -/
structure AccountInfo where
  name : Option String := none
  login : Option String := none
  balance : Option Rat := none
  equity : Option Rat := none
  marginLevel : Option Rat := none
deriving DecidableEq, Repr

/-- TS `interface Position` (page.tsx lines 16-29). `profit` is declared
`number | string` in TS and every consumer reads it through `Number(...)`;
we model it as the numeric value directly. Timestamps are `Nat`
milliseconds. -/
structure Position where
  id : String
  symbol : String
  type : String
  volume : Rat
  openPrice : Rat
  currentPrice : Rat
  profit : Rat
  lastUpdate : Option Nat := none
  priceChange : Option Dir := none
  tickDirection : Option Dir := none
  lastTickTime : Option Nat := none
  isRealData : Option Bool := none
deriving DecidableEq, Repr

/-- TS `interface Order` (page.tsx lines 31-38). -/
structure Order where
  id : String
  symbol : String
  type : String
  volume : Rat
  openPrice : Rat
  state : String
deriving DecidableEq, Repr

/-- TS `interface AccountData` (page.tsx lines 40-47). -/
structure AccountData where
  accountId : String
  connected : Option Bool := none
  connectedToBroker : Option Bool := none
  accountInfo : Option AccountInfo := none
  positions : Option (List Position) := none
  orders : Option (List Order) := none
deriving DecidableEq, Repr

/-- TS `interface PnLHistoryItem` (page.tsx lines 57-60). -/
structure PnLHistoryItem where
  timestamp : Nat
  value : Rat
deriving DecidableEq, Repr

/-! ## SparkLine (page.tsx lines 63-94) -/

/-- `Math.max(...data)` on a JS array; on the empty spread JS yields
`-Infinity`, which the component never reaches (it returns before when
`data.length < 2`); we pick `0` for the empty list. -/
def listMax : List Rat → Rat
  | [] => 0
  | x :: xs => xs.foldl max x

/-- `Math.min(...data)`, same conventions as `listMax`. -/
def listMin : List Rat → Rat
  | [] => 0
  | x :: xs => xs.foldl min x

/-- `const range = max - min || 1` : a zero range is replaced by 1
(JS `||` on the falsy number 0). -/
def sparkRange (data : List Rat) : Rat :=
  if listMax data - listMin data = 0 then 1 else listMax data - listMin data

/-- Point list of the polyline: element `v` at index `i` is mapped to
`x = (i / (n-1)) * 100`, `y = 100 - ((v - min) / range) * 100`, with `n`
the full length of the data. `i` counts from the given start index. -/
def sparkPointsFrom (n : Nat) (mn range : Rat) : Nat → List Rat → List (Rat × Rat)
  | _, [] => []
  | i, v :: vs =>
    ((((i : Rat) / ((n : Rat) - 1)) * 100), (100 - ((v - mn) / range) * 100))
      :: sparkPointsFrom n mn range (i + 1) vs

/-- The SparkLine component's computation (page.tsx 63-94): `none` stands
for the `return null` on fewer than two samples, otherwise the normalized
polyline points, one per sample. -/
def sparkPoints (data : List Rat) : Option (List (Rat × Rat)) :=
  if data.length < 2 then none
  else some (sparkPointsFrom data.length (listMin data) (sparkRange data) 0 data)

/-! ## Interpolation ticker (page.tsx lines 438-508) -/

/-- One position's interpolation step (page.tsx 452-492). `changePercent`
stands for the pseudo-random factor
`(Math.random() * 0.0004 + 0.0001) * (Math.random() > 0.5 ? 1 : -1)`,
passed here as an explicit parameter. The guard `if (!position.lastUpdate)
return position` skips a missing and a zero `lastUpdate` alike (JS
falsiness). -/
def tickPosition (now : Nat) (changePercent : Rat) (pos : Position) : Position :=
  match pos.lastUpdate with
  | none => pos
  | some t =>
    if t = 0 then pos
    else
      let priceChange := pos.currentPrice * changePercent
      let newPrice := pos.currentPrice + priceChange
      let tickDirection : Option Dir :=
        if priceChange > 0 then some Dir.up
        else if priceChange < 0 then some Dir.down
        else none
      let newProfit :=
        if pos.type = "POSITION_TYPE_BUY" then
          pos.profit + priceChange * pos.volume
        else
          pos.profit - priceChange * pos.volume
      { pos with
          currentPrice := newPrice
          profit := newProfit
          tickDirection := tickDirection
          lastTickTime := some now
          isRealData := some false }

/-- Ticks a position list; `pct i` is the random factor consumed by the
`i`-th position's callback (one fresh draw pair per position). -/
def tickPositionsFrom (now : Nat) (pct : Nat → Rat) : Nat → List Position → List Position
  | _, [] => []
  | i, p :: ps => tickPosition now (pct i) p :: tickPositionsFrom now pct (i + 1) ps

/-- One account's treatment inside the ticker's `map` (page.tsx 444-500):
non-selected accounts and accounts with a missing or empty position list
are returned unchanged. -/
def tickAccount (now : Nat) (selected : String) (pct : Nat → Rat) (a : AccountData) : AccountData :=
  if a.accountId ≠ selected then a
  else
    match a.positions with
    | none => a
    | some ps =>
      if ps.length = 0 then a
      else { a with positions := some (tickPositionsFrom now pct 0 ps) }

/-- One interpolation tick over the whole account list (page.tsx 443-501);
`pct ai pi` is the random factor for position `pi` of account `ai`. -/
def tickStep (now : Nat) (selected : String) (pct : Nat → Nat → Rat) :
    Nat → List AccountData → List AccountData
  | _, [] => []
  | ai, a :: rest =>
    tickAccount now selected (pct ai) a :: tickStep now selected pct (ai + 1) rest

/-! ## Event ingestion: updateAccountInfo and updatePositions
(page.tsx lines 555-644) -/

/-- `updateAccountInfo` (page.tsx 555-566): upsert of the account
metadata for `aid`. `info` models `data.accountInformation`; the JS
expression `data.accountInformation || account.accountInfo` keeps the old
value only when the payload field is absent (an object is always
truthy). -/
def updateAccountInfo (aid : String) (info : Option AccountInfo)
    (accounts : List AccountData) : List AccountData :=
  accounts.map fun account =>
    if account.accountId = aid then
      { account with
          accountInfo :=
            match info with
            | some i => some i
            | none => account.accountInfo }
    else account

/-- The partial position object `data.position` carried by a
`positionUpdated` event: every field optional; the JS spread
`... data.position` overwrites exactly the present fields. -/
structure PositionPatch where
  id : Option String := none
  symbol : Option String := none
  type : Option String := none
  volume : Option Rat := none
  openPrice : Option Rat := none
  currentPrice : Option Rat := none
  profit : Option Rat := none
deriving DecidableEq, Repr

/-- The spread `... pos, ... data.position` (page.tsx 595-597). -/
def PositionPatch.applyTo (patch : PositionPatch) (pos : Position) : Position :=
  { pos with
      id := patch.id.getD pos.id
      symbol := patch.symbol.getD pos.symbol
      type := patch.type.getD pos.type
      volume := patch.volume.getD pos.volume
      openPrice := patch.openPrice.getD pos.openPrice
      currentPrice := patch.currentPrice.getD pos.currentPrice
      profit := patch.profit.getD pos.profit }

/-- Body of the per-position `map` of the `positionUpdated` branch
(page.tsx 580-606). `newPrice` is
`data.position.currentPrice || pos.currentPrice`: a missing and a zero
payload price both fall back to the old price (JS `||` falsiness);
`priceChange` compares that effective new price with the old one; then
the payload fields are spread over the position and `lastUpdate`,
`priceChange`, `tickDirection`, `isRealData` are overwritten. -/
def posUpdateOne (now : Nat) (positionId : String) (patch : PositionPatch)
    (pos : Position) : Position :=
  if pos.id = positionId then
    let newPrice :=
      match patch.currentPrice with
      | some c => if c = 0 then pos.currentPrice else c
      | none => pos.currentPrice
    let priceChange : Option Dir :=
      if newPrice > pos.currentPrice then some Dir.up
      else if newPrice < pos.currentPrice then some Dir.down
      else none
    { patch.applyTo pos with
        lastUpdate := some now
        priceChange := priceChange
        tickDirection := none
        isRealData := some true }
  else pos

/-- Per-account body of the `positionUpdated` branch (page.tsx 575-612):
accounts other than `aid` are untouched; on a match the position list
(`account.positions || []`) is mapped through `posUpdateOne`. -/
def posUpdateAccount (now : Nat) (aid positionId : String) (patch : PositionPatch)
    (account : AccountData) : AccountData :=
  if account.accountId = aid then
    { account with
        positions := some ((account.positions.getD []).map
          (posUpdateOne now positionId patch)) }
  else account

/-- `positionUpdated` branch of `updatePositions` (page.tsx 571-614). -/
def updatePositionUpdated (now : Nat) (aid positionId : String)
    (patch : PositionPatch) (accounts : List AccountData) : List AccountData :=
  accounts.map (posUpdateAccount now aid positionId patch)

/-- `positionRemoved` branch of `updatePositions` (page.tsx 616-629):
filter the matching account's positions by `p.id !== data.positionId`. -/
def updatePositionRemoved (aid positionId : String)
    (accounts : List AccountData) : List AccountData :=
  accounts.map fun account =>
    if account.accountId = aid then
      { account with
          positions := some ((account.positions.getD []).filter
            (fun p => p.id ≠ positionId)) }
    else account

/-! ## Aggregator: net PnL recomputation (page.tsx lines 511-551) -/

/-- `positions.reduce((sum, position) => sum + Number(position.profit), 0)`
(page.tsx 513-515). -/
def computeNetPnL (ps : List Position) : Rat :=
  ps.foldl (fun sum position => sum + position.profit) 0

/-- One step of the `forEach` that groups profit by symbol
(page.tsx 534-543): `symbolPnL[symbol]` is created at 0 when absent (or
when 0, a no-op) and then incremented by the profit. -/
def upsertAdd : List (String × Rat) → String → Rat → List (String × Rat)
  | [], sym, v => [(sym, v)]
  | (k, x) :: rest, sym, v =>
    if k = sym then (k, x + v) :: rest
    else (k, x) :: upsertAdd rest sym v

/-- `symbolPnL` record built by page.tsx 533-543, as an association list
in first-occurrence order. -/
def computePnLBySymbol (ps : List Position) : List (String × Rat) :=
  ps.foldl (fun acc p => upsertAdd acc p.symbol p.profit) []

/-- State written by the net-PnL effect: `netPnL`, `prevNetPnLRef`,
`pnlChange` and `pnlBySymbol`. -/
structure PnLAggState where
  netPnL : Rat := 0
  prevNetPnL : Rat := 0
  pnlChange : Option Dir := none
  pnlBySymbol : List (String × Rat) := []
deriving DecidableEq, Repr

/-- The net-PnL effect body (page.tsx 511-551) for one run: `positions?`
is `selectedAccountData?.positions`. The 2-second timeout that later
clears `pnlChange` is a separate delayed action and is not part of this
step. -/
def recomputePnL (positions? : Option (List Position)) (st : PnLAggState) : PnLAggState :=
  match positions? with
  | some ps =>
    let totalPnL := computeNetPnL ps
    let pnlChange :=
      if st.prevNetPnL = 0 then st.pnlChange
      else if totalPnL > st.prevNetPnL then some Dir.up
      else if totalPnL < st.prevNetPnL then some Dir.down
      else st.pnlChange
    { netPnL := totalPnL
      prevNetPnL := totalPnL
      pnlChange := pnlChange
      pnlBySymbol := computePnLBySymbol ps }
  | none =>
    { netPnL := 0
      prevNetPnL := 0
      pnlChange := st.pnlChange
      pnlBySymbol := [] }

/-! ## Aggregator: PnL history sampling (page.tsx lines 409-435) -/

/-- JS `array.slice(-60)`: the (at most) 60 last elements, in order. -/
def takeLast (n : Nat) (l : List α) : List α :=
  l.drop (l.length - n)

/-- `[...prev, newHistoryItem].slice(-60)` (page.tsx 416, 424-427). -/
def pushCapped (item : PnLHistoryItem) (l : List PnLHistoryItem) : List PnLHistoryItem :=
  takeLast 60 (l ++ [item])

/-- Association-list read `prev[symbol] || []` (page.tsx 423). -/
def lookupAssoc : List (String × β) → String → Option β
  | [], _ => none
  | (k, x) :: rest, sym => if k = sym then some x else lookupAssoc rest sym

/-- Association-list write `( ...prev, [symbol]: v )`: replace in place
when the key exists, append otherwise (JS object key order). -/
def setAssoc : List (String × β) → String → β → List (String × β)
  | [], sym, v => [(sym, v)]
  | (k, x) :: rest, sym, v =>
    if k = sym then (k, v) :: rest
    else (k, x) :: setAssoc rest sym v

/-- State written by the history-sampling effect. -/
structure HistState where
  pnlHistory : List PnLHistoryItem := []
  pnlHistoryBySymbol : List (String × List PnLHistoryItem) := []
deriving DecidableEq, Repr

/-- Per-symbol update of page.tsx 421-430 for one `(symbol, profit)`
entry. -/
def updateSymbolHistory (now : Nat) (hist : List (String × List PnLHistoryItem))
    (sym : String) (profit : Rat) : List (String × List PnLHistoryItem) :=
  setAssoc hist sym (pushCapped ⟨now, profit⟩ ((lookupAssoc hist sym).getD []))

/-- One run of the 5-second sampling interval (page.tsx 411-432): when
`netPnL` is 0 nothing is recorded; otherwise a sample is appended (capped
at 60) to the net history and to each symbol's history. -/
def samplePnLStep (now : Nat) (netPnL : Rat) (pnlBySymbol : List (String × Rat))
    (st : HistState) : HistState :=
  if netPnL = 0 then st
  else
    { pnlHistory := pushCapped ⟨now, netPnL⟩ st.pnlHistory
      pnlHistoryBySymbol :=
        pnlBySymbol.foldl
          (fun h sv => updateSymbolHistory now h sv.1 sv.2)
          st.pnlHistoryBySymbol }

/-! ## Refresh coalescing (page.tsx lines 684-731) -/

/-- Session view of `refreshAccountDetails`: the `isRefreshing` flag and
a ghost count of REST fetches currently outstanding. -/
structure RefreshSession where
  isRefreshing : Bool
  outstanding : Nat
deriving DecidableEq, Repr

/-- Invoking `refreshAccountDetails` (page.tsx 686-695): with a refresh
already in flight the call returns immediately (no fetch, no state
change); otherwise the flag is raised and one fetch is issued. The `Bool`
result records whether a REST call was made. -/
def refreshInvoke (s : RefreshSession) : RefreshSession × Bool :=
  if s.isRefreshing then (s, false)
  else ({ isRefreshing := true, outstanding := s.outstanding + 1 }, true)

/-- Completion of the in-flight fetch: the `finally` block (page.tsx
726-728) lowers the flag; the fetch is no longer outstanding. -/
def refreshComplete (s : RefreshSession) : RefreshSession :=
  { isRefreshing := false, outstanding := s.outstanding - 1 }

/-- Session states reachable from startup (`isRefreshing = false`, no
fetch outstanding) by invocations and completions; a completion exists
only while a fetch is in flight. -/
inductive RefreshReachable : RefreshSession → Prop
  | init : RefreshReachable ⟨false, 0⟩
  | invoke {s} : RefreshReachable s → RefreshReachable (refreshInvoke s).1
  | complete {s} : RefreshReachable s → s.isRefreshing = true →
      RefreshReachable (refreshComplete s)

/-! ## Invariants and sample data used by the verification -/

/-- The data-model invariant of spec section 3: a position flagged as real
data always carries a `lastUpdate` timestamp. -/
def RealDataInv (accounts : List AccountData) : Prop :=
  ∀ a ∈ accounts, ∀ p ∈ a.positions.getD [], p.isRealData = some true → p.lastUpdate ≠ none

/-- Bounded-history invariant: the net history and every per-symbol
history hold at most 60 samples. -/
def HistInv (st : HistState) : Prop :=
  st.pnlHistory.length ≤ 60 ∧ ∀ kv ∈ st.pnlHistoryBySymbol, kv.2.length ≤ 60

/-- Per-account form of `clearPriceChange`. -/
def clearPriceChangeAccount (aid positionId : String) (account : AccountData) : AccountData :=
  if account.accountId = aid then
    { account with
        positions := some ((account.positions.getD []).map
          (fun p => if p.id = positionId then { p with priceChange := none } else p)) }
  else account

/-- Clearing the derived `priceChange` of the position `positionId` inside
account `aid`; used to state how a repeated `positionUpdated` upsert
differs from a single one. -/
def clearPriceChange (aid positionId : String) (accounts : List AccountData) :
    List AccountData :=
  accounts.map (clearPriceChangeAccount aid positionId)

/-- Sample buy position that has already received an authoritative update. -/
def samplePos : Position :=
  { id := "p1", symbol := "EURUSD", type := "POSITION_TYPE_BUY",
    volume := 1, openPrice := 1, currentPrice := 1, profit := 1, lastUpdate := some 100 }

/-- Sample position never touched by authoritative data. -/
def samplePosNoUpdate : Position :=
  { id := "p2", symbol := "EURUSD", type := "POSITION_TYPE_BUY",
    volume := 1, openPrice := 1, currentPrice := 1, profit := 1 }

/-- Sample position whose `lastUpdate` is the (falsy) timestamp 0. -/
def samplePosZeroStamp : Position :=
  { id := "p3", symbol := "EURUSD", type := "POSITION_TYPE_BUY",
    volume := 1, openPrice := 1, currentPrice := 1, profit := 1, lastUpdate := some 0 }

/-- Sample account holding `samplePos`. -/
def sampleAccount : AccountData :=
  { accountId := "acct", positions := some [samplePos] }

/-- Payload carrying the (falsy) current price 0. -/
def samplePatchZero : PositionPatch := { currentPrice := some 0 }

/-- History state whose net series and whose "EURUSD" symbol series are
both exactly at the 60-sample cap. -/
def sampleHistFull : HistState :=
  { pnlHistory := List.replicate 60 ⟨0, 1⟩
    pnlHistoryBySymbol := [("EURUSD", List.replicate 60 ⟨0, 1⟩)] }

/-- Payload raising the current price to 2. -/
def samplePatchTwo : PositionPatch := { currentPrice := some 2 }

/-! ## Helper lemmas -/

theorem map_eq_self_of_mem {α : Type} {f : α → α} {l : List α}
    (h : ∀ a ∈ l, f a = a) : l.map f = l := by
  induction l with
  | nil => rfl
  | cons x xs ih =>
    simp only [List.map_cons]
    rw [h x (List.mem_cons_self x xs), ih (fun a ha => h a (List.mem_cons_of_mem _ ha))]

theorem foldl_add_profit (ps : List Position) :
    ∀ a : Rat, ps.foldl (fun s p => s + p.profit) a = a + (ps.map (fun p => p.profit)).sum := by
  induction ps with
  | nil => intro a; simp
  | cons p tl ih =>
    intro a
    simp only [List.foldl_cons, List.map_cons, List.sum_cons, ih, add_assoc]

/-! ## C4: net PnL recomputation -/

/-- C4: for every selected account with a position set, the recomputed net
PnL equals the sum of the positions' profits, and recomputing again
without mutating the position set yields the same net PnL. -/
theorem netPnL_spec (ps : List Position) (st : PnLAggState) :
    (recomputePnL (some ps) st).netPnL = (ps.map (fun p => p.profit)).sum ∧
    (recomputePnL (some ps) (recomputePnL (some ps) st)).netPnL
      = (recomputePnL (some ps) st).netPnL := by
  have h : ∀ st' : PnLAggState, (recomputePnL (some ps) st').netPnL = computeNetPnL ps := by
    intro st'
    simp [recomputePnL]
  refine ⟨?_, by rw [h, h]⟩
  rw [h]
  unfold computeNetPnL
  simpa using foldl_add_profit ps 0

/-! ## C7: unknown accountId is a silent no-op -/

/-- C7: an `accountInformationUpdated`, `positionUpdated` or
`positionRemoved` event whose accountId matches no stored account leaves
the whole store unchanged. -/
theorem unknownAccount_noop (now : Nat) (aid pid : String) (info : Option AccountInfo)
    (patch : PositionPatch) (accounts : List AccountData)
    (h : ∀ a ∈ accounts, a.accountId ≠ aid) :
    updateAccountInfo aid info accounts = accounts ∧
    updatePositionUpdated now aid pid patch accounts = accounts ∧
    updatePositionRemoved aid pid accounts = accounts := by
  refine ⟨?_, ?_, ?_⟩ <;>
    · apply map_eq_self_of_mem
      intro a ha
      simp [updateAccountInfo, posUpdateAccount, updatePositionRemoved, h a ha]

/-- Witness for C7 at a concrete one-account store. -/
theorem unknownAccount_noop_witness :
    (∀ a ∈ [sampleAccount], a.accountId ≠ "other") ∧
    (updateAccountInfo "other" none [sampleAccount] = [sampleAccount] ∧
     updatePositionUpdated 5 "other" "p1" samplePatchTwo [sampleAccount] = [sampleAccount] ∧
     updatePositionRemoved "other" "p1" [sampleAccount] = [sampleAccount]) :=
  ⟨by decide,
   unknownAccount_noop 5 "other" "p1" none samplePatchTwo [sampleAccount] (by decide)⟩

/-! ## C9: refresh coalescing -/

theorem refreshReachable_flag {s : RefreshSession} (h : RefreshReachable s) :
    s.outstanding = if s.isRefreshing then 1 else 0 := by
  induction h with
  | init => rfl
  | @invoke s h ih =>
    by_cases hr : s.isRefreshing
    · simpa [refreshInvoke, hr] using ih
    · simp [refreshInvoke, hr] at ih ⊢
      omega
  | @complete s h hflag ih =>
    simp [refreshComplete, hflag] at ih ⊢
    omega

/-- C9: invoking `refreshAccountDetails` while a refresh is in flight
issues no REST call and changes no state, and in every reachable session
state at most one account-detail fetch is outstanding. -/
theorem refresh_coalescing :
    (∀ s : RefreshSession, s.isRefreshing = true → refreshInvoke s = (s, false)) ∧
    (∀ s : RefreshSession, RefreshReachable s → s.outstanding ≤ 1) := by
  constructor
  · intro s hs
    simp [refreshInvoke, hs]
  · intro s hs
    have h := refreshReachable_flag hs
    split at h <;> omega

/-- Witness for C9: the in-flight state drops the call; the initial state
is reachable with no fetch outstanding. -/
theorem refresh_coalescing_witness :
    ((⟨true, 1⟩ : RefreshSession).isRefreshing = true ∧
     refreshInvoke ⟨true, 1⟩ = (⟨true, 1⟩, false)) ∧
    (⟨false, 0⟩ : RefreshSession).outstanding ≤ 1 :=
  ⟨⟨rfl, refresh_coalescing.1 ⟨true, 1⟩ rfl⟩,
   refresh_coalescing.2 ⟨false, 0⟩ RefreshReachable.init⟩

/-! ## C8: positionRemoved deletes exactly the matching position -/

/-- C8: after a `positionRemoved` event for account `aid` and position
`pid`, accounts other than `aid` are untouched; in a matching account no
position with id `pid` remains, every other position survives, and no
position is invented. -/
theorem positionRemoved_spec (aid pid : String) (accounts : List AccountData) :
    List.Forall₂ (fun a a' =>
      (a.accountId ≠ aid → a' = a) ∧
      (a.accountId = aid →
        a'.accountId = aid ∧
        (∀ p ∈ a'.positions.getD [], p.id ≠ pid) ∧
        (∀ p ∈ a.positions.getD [], p.id ≠ pid → p ∈ a'.positions.getD []) ∧
        (∀ p ∈ a'.positions.getD [], p ∈ a.positions.getD [])))
      accounts (updatePositionRemoved aid pid accounts) := by
  unfold updatePositionRemoved
  induction accounts with
  | nil => simp
  | cons a tl ih =>
    simp only [List.map_cons]
    refine List.Forall₂.cons ⟨fun hne => by simp [hne], fun heq => ?_⟩ ih
    simp only [heq, if_pos rfl]
    refine ⟨rfl, ?_, ?_, ?_⟩
    · intro p hp
      have hp' : p ∈ (a.positions.getD []).filter (fun p => p.id ≠ pid) := hp
      have := (List.mem_filter.mp hp').2
      simpa using this
    · intro p hp hne
      show p ∈ (a.positions.getD []).filter (fun p => p.id ≠ pid)
      exact List.mem_filter.mpr ⟨hp, by simpa using hne⟩
    · intro p hp
      have hp' : p ∈ (a.positions.getD []).filter (fun p => p.id ≠ pid) := hp
      exact List.filter_subset' _ hp'

/-- Witness for C8 at a concrete store. -/
theorem positionRemoved_spec_witness :
    List.Forall₂ (fun a a' =>
      (a.accountId ≠ "acct" → a' = a) ∧
      (a.accountId = "acct" →
        a'.accountId = "acct" ∧
        (∀ p ∈ a'.positions.getD [], p.id ≠ "p1") ∧
        (∀ p ∈ a.positions.getD [], p.id ≠ "p1" → p ∈ a'.positions.getD []) ∧
        (∀ p ∈ a'.positions.getD [], p ∈ a.positions.getD [])))
      [sampleAccount] (updatePositionRemoved "acct" "p1" [sampleAccount]) :=
  positionRemoved_spec "acct" "p1" [sampleAccount]

/-! ## C5: bounded FIFO PnL history -/

theorem pushCapped_length_le (item : PnLHistoryItem) (l : List PnLHistoryItem) :
    (pushCapped item l).length ≤ 60 := by
  unfold pushCapped takeLast
  simp only [List.length_drop, List.length_append, List.length_cons, List.length_nil]
  omega

theorem pushCapped_append (item : PnLHistoryItem) (l : List PnLHistoryItem)
    (h : l.length < 60) : pushCapped item l = l ++ [item] := by
  unfold pushCapped takeLast
  have h0 : (l ++ [item]).length - 60 = 0 := by
    simp only [List.length_append, List.length_cons, List.length_nil]
    omega
  rw [h0, List.drop_zero]

theorem pushCapped_fifo (item : PnLHistoryItem) (l : List PnLHistoryItem)
    (h : l.length = 60) : pushCapped item l = l.tail ++ [item] := by
  unfold pushCapped takeLast
  have h1 : (l ++ [item]).length - 60 = 1 := by
    simp only [List.length_append, List.length_cons, List.length_nil]
    omega
  rw [h1]
  cases l with
  | nil => simp at h
  | cons x xs => simp

theorem mem_setAssoc {β : Type} {l : List (String × β)} {sym : String} {v : β} {kv : String × β}
    (h : kv ∈ setAssoc l sym v) : kv ∈ l ∨ kv.2 = v := by
  induction l with
  | nil =>
    simp only [setAssoc, List.mem_singleton] at h
    right
    rw [h]
  | cons hd tl ih =>
    obtain ⟨k, x⟩ := hd
    simp only [setAssoc] at h
    by_cases hk : k = sym
    · simp only [if_pos hk, List.mem_cons] at h
      rcases h with h | h
      · right
        simp [h]
      · left
        exact List.mem_cons_of_mem _ h
    · simp only [if_neg hk, List.mem_cons] at h
      rcases h with h | h
      · left
        simp [h]
      · rcases ih h with h' | h'
        · left
          exact List.mem_cons_of_mem _ h'
        · right
          exact h'

theorem updateSymbolHistory_inv {hist : List (String × List PnLHistoryItem)}
    (hinv : ∀ kv ∈ hist, kv.2.length ≤ 60) (now : Nat) (sym : String) (profit : Rat) :
    ∀ kv ∈ updateSymbolHistory now hist sym profit, kv.2.length ≤ 60 := by
  intro kv hkv
  rcases mem_setAssoc hkv with h | h
  · exact hinv kv h
  · rw [h]
    exact pushCapped_length_le _ _

theorem foldl_symbolHistory_inv (now : Nat) (entries : List (String × Rat)) :
    ∀ hist, (∀ kv ∈ hist, kv.2.length ≤ 60) →
      ∀ kv ∈ entries.foldl (fun h sv => updateSymbolHistory now h sv.1 sv.2) hist,
        kv.2.length ≤ 60 := by
  induction entries with
  | nil =>
    intro hist hinv
    simpa using hinv
  | cons e tl ih =>
    intro hist hinv
    simp only [List.foldl_cons]
    exact ih _ (updateSymbolHistory_inv hinv now e.1 e.2)

theorem lookupAssoc_setAssoc_self {β : Type} (l : List (String × β)) (sym : String) (v : β) :
    lookupAssoc (setAssoc l sym v) sym = some v := by
  induction l with
  | nil => simp [setAssoc, lookupAssoc]
  | cons hd tl ih =>
    obtain ⟨k, x⟩ := hd
    by_cases hk : k = sym
    · simp [setAssoc, lookupAssoc, hk]
    · simp [setAssoc, lookupAssoc, hk, ih]

theorem lookupAssoc_setAssoc_ne {β : Type} (l : List (String × β)) (sym k : String) (v : β)
    (hne : k ≠ sym) : lookupAssoc (setAssoc l sym v) k = lookupAssoc l k := by
  induction l with
  | nil => simp [setAssoc, lookupAssoc, Ne.symm hne]
  | cons hd tl ih =>
    obtain ⟨kk, x⟩ := hd
    by_cases hkk : kk = sym
    · subst hkk
      simp [setAssoc, lookupAssoc, Ne.symm hne]
    · by_cases hkx : kk = k
      · subst hkx
        simp [setAssoc, lookupAssoc, hkk]
      · simp [setAssoc, lookupAssoc, hkk, hkx, ih]

theorem updateSymbolHistory_lookup_self (now : Nat)
    (hist : List (String × List PnLHistoryItem)) (sym : String) (profit : Rat) :
    lookupAssoc (updateSymbolHistory now hist sym profit) sym
      = some (pushCapped ⟨now, profit⟩ ((lookupAssoc hist sym).getD [])) := by
  unfold updateSymbolHistory
  exact lookupAssoc_setAssoc_self _ _ _

theorem updateSymbolHistory_lookup_ne (now : Nat)
    (hist : List (String × List PnLHistoryItem)) (sym : String) (profit : Rat)
    (k : String) (hne : k ≠ sym) :
    lookupAssoc (updateSymbolHistory now hist sym profit) k = lookupAssoc hist k := by
  unfold updateSymbolHistory
  exact lookupAssoc_setAssoc_ne _ _ _ _ hne

theorem foldl_symbolHistory_lookup_ne (now : Nat) (entries : List (String × Rat)) (k : String)
    (hk : ∀ e ∈ entries, e.1 ≠ k) :
    ∀ hist, lookupAssoc
        (entries.foldl (fun h sv => updateSymbolHistory now h sv.1 sv.2) hist) k
      = lookupAssoc hist k := by
  induction entries with
  | nil =>
    intro hist
    rfl
  | cons e tl ih =>
    intro hist
    simp only [List.foldl_cons]
    rw [ih (fun x hx => hk x (List.mem_cons_of_mem _ hx))]
    exact updateSymbolHistory_lookup_ne now hist e.1 e.2 k
      (Ne.symm (hk e (List.mem_cons_self e tl)))

theorem foldl_symbolHistory_lookup (now : Nat) (entries : List (String × Rat))
    (hnd : (entries.map Prod.fst).Nodup) :
    ∀ (hist : List (String × List PnLHistoryItem)) (sym : String) (v : Rat),
      (sym, v) ∈ entries →
      lookupAssoc (entries.foldl (fun h sv => updateSymbolHistory now h sv.1 sv.2) hist) sym
        = some (pushCapped ⟨now, v⟩ ((lookupAssoc hist sym).getD [])) := by
  induction entries with
  | nil =>
    intro hist sym v h
    simp at h
  | cons e tl ih =>
    intro hist sym v h
    simp only [List.map_cons, List.nodup_cons] at hnd
    obtain ⟨hnotmem, hnd'⟩ := hnd
    simp only [List.foldl_cons]
    rcases List.mem_cons.mp h with h | h
    · have he : e = (sym, v) := h.symm
      subst he
      have hk : ∀ x ∈ tl, x.1 ≠ sym := by
        intro x hx hx1
        apply hnotmem
        show sym ∈ List.map Prod.fst tl
        rw [← hx1]
        exact List.mem_map_of_mem Prod.fst hx
      rw [foldl_symbolHistory_lookup_ne now tl sym hk]
      exact updateSymbolHistory_lookup_self now hist sym v
    · have hsym : sym ≠ e.1 := by
        intro heq
        apply hnotmem
        rw [← heq]
        exact List.mem_map_of_mem Prod.fst h
      rw [ih hnd' (updateSymbolHistory now hist e.1 e.2) sym v h]
      rw [updateSymbolHistory_lookup_ne now hist e.1 e.2 sym hsym]

/-- C5: a sampling step keeps every history list at or under 60 entries;
for the net history and for each symbol's history (the sampled symbols
carry pairwise-distinct keys, as `Object.entries` of a JS object always
does) an append at the cap evicts the oldest entry first (FIFO) and an
append below the cap is a plain append; and a zero net PnL leaves all
histories unchanged. -/
theorem pnlHistory_spec (now : Nat) (n : Rat) (syms : List (String × Rat)) (st : HistState) :
    (HistInv st → HistInv (samplePnLStep now n syms st)) ∧
    (samplePnLStep now 0 syms st = st) ∧
    (n ≠ 0 → st.pnlHistory.length < 60 →
      (samplePnLStep now n syms st).pnlHistory = st.pnlHistory ++ [⟨now, n⟩]) ∧
    (n ≠ 0 → st.pnlHistory.length = 60 →
      (samplePnLStep now n syms st).pnlHistory = st.pnlHistory.tail ++ [⟨now, n⟩]) ∧
    (n ≠ 0 → (syms.map Prod.fst).Nodup → ∀ sym v, (sym, v) ∈ syms →
      lookupAssoc (samplePnLStep now n syms st).pnlHistoryBySymbol sym
        = some (pushCapped ⟨now, v⟩ ((lookupAssoc st.pnlHistoryBySymbol sym).getD []))) ∧
    (n ≠ 0 → (syms.map Prod.fst).Nodup → ∀ sym v, (sym, v) ∈ syms →
      ((lookupAssoc st.pnlHistoryBySymbol sym).getD []).length < 60 →
      lookupAssoc (samplePnLStep now n syms st).pnlHistoryBySymbol sym
        = some ((lookupAssoc st.pnlHistoryBySymbol sym).getD [] ++ [⟨now, v⟩])) ∧
    (n ≠ 0 → (syms.map Prod.fst).Nodup → ∀ sym v, (sym, v) ∈ syms →
      ((lookupAssoc st.pnlHistoryBySymbol sym).getD []).length = 60 →
      lookupAssoc (samplePnLStep now n syms st).pnlHistoryBySymbol sym
        = some (((lookupAssoc st.pnlHistoryBySymbol sym).getD []).tail ++ [⟨now, v⟩])) := by
  refine ⟨?_, by simp [samplePnLStep], ?_, ?_, ?_, ?_, ?_⟩
  · intro hinv
    obtain ⟨h1, h2⟩ := hinv
    unfold samplePnLStep
    by_cases hn : n = 0
    · simp only [if_pos hn]
      exact ⟨h1, h2⟩
    · simp only [if_neg hn]
      exact ⟨pushCapped_length_le _ _, foldl_symbolHistory_inv now syms _ h2⟩
  · intro hn hlen
    simp only [samplePnLStep, if_neg hn]
    exact pushCapped_append _ _ hlen
  · intro hn hlen
    simp only [samplePnLStep, if_neg hn]
    exact pushCapped_fifo _ _ hlen
  · intro hn hnd sym v hmem
    simp only [samplePnLStep, if_neg hn]
    exact foldl_symbolHistory_lookup now syms hnd st.pnlHistoryBySymbol sym v hmem
  · intro hn hnd sym v hmem hlen
    simp only [samplePnLStep, if_neg hn]
    rw [foldl_symbolHistory_lookup now syms hnd st.pnlHistoryBySymbol sym v hmem,
      pushCapped_append _ _ hlen]
  · intro hn hnd sym v hmem hlen
    simp only [samplePnLStep, if_neg hn]
    rw [foldl_symbolHistory_lookup now syms hnd st.pnlHistoryBySymbol sym v hmem,
      pushCapped_fifo _ _ hlen]

/-- Witness for C5, at the empty history (appends, net and per-symbol)
and at a full 60-entry history (FIFO eviction, net and per-symbol). -/
theorem pnlHistory_spec_witness :
    (HistInv {} ∧ HistInv (samplePnLStep 1 5 [("EURUSD", 5)] {})) ∧
    ((5 : Rat) ≠ 0 ∧ (HistState.pnlHistory {}).length < 60 ∧
      (samplePnLStep 1 5 [("EURUSD", 5)] {}).pnlHistory = HistState.pnlHistory {} ++ [⟨1, 5⟩]) ∧
    (sampleHistFull.pnlHistory.length = 60 ∧
      (samplePnLStep 1 5 [] sampleHistFull).pnlHistory
        = sampleHistFull.pnlHistory.tail ++ [⟨1, 5⟩]) ∧
    (([("EURUSD", (5 : Rat))].map Prod.fst).Nodup ∧
      ("EURUSD", (5 : Rat)) ∈ [("EURUSD", (5 : Rat))] ∧
      ((lookupAssoc (HistState.pnlHistoryBySymbol {}) "EURUSD").getD []).length < 60 ∧
      lookupAssoc (samplePnLStep 1 5 [("EURUSD", 5)] {}).pnlHistoryBySymbol "EURUSD"
        = some ((lookupAssoc (HistState.pnlHistoryBySymbol {}) "EURUSD").getD [] ++ [⟨1, 5⟩])) ∧
    (((lookupAssoc sampleHistFull.pnlHistoryBySymbol "EURUSD").getD []).length = 60 ∧
      lookupAssoc
          (samplePnLStep 1 5 [("EURUSD", 5)] sampleHistFull).pnlHistoryBySymbol "EURUSD"
        = some (((lookupAssoc sampleHistFull.pnlHistoryBySymbol "EURUSD").getD []).tail
            ++ [⟨1, 5⟩])) :=
  ⟨⟨⟨by decide, by decide⟩,
    (pnlHistory_spec 1 5 [("EURUSD", 5)] {}).1 ⟨by decide, by decide⟩⟩,
   ⟨by decide, by decide,
    (pnlHistory_spec 1 5 [("EURUSD", 5)] {}).2.2.1 (by decide) (by decide)⟩,
   ⟨by decide,
    (pnlHistory_spec 1 5 [] sampleHistFull).2.2.2.1 (by decide) (by decide)⟩,
   ⟨by decide, by decide, by decide,
    (pnlHistory_spec 1 5 [("EURUSD", 5)] {}).2.2.2.2.2.1 (by decide) (by decide)
      "EURUSD" 5 (by decide) (by decide)⟩,
   ⟨by decide,
    (pnlHistory_spec 1 5 [("EURUSD", 5)] sampleHistFull).2.2.2.2.2.2 (by decide) (by decide)
      "EURUSD" 5 (by decide) (by decide)⟩⟩

/-! ## C2: the ticker preserves the real-data invariant -/

theorem tickPosition_eq_none (now : Nat) (c : Rat) (pos : Position)
    (h : pos.lastUpdate = none) : tickPosition now c pos = pos := by
  unfold tickPosition
  rw [h]

theorem tickPosition_eq_zero (now : Nat) (c : Rat) (pos : Position) (t : Nat)
    (h : pos.lastUpdate = some t) (ht : t = 0) : tickPosition now c pos = pos := by
  unfold tickPosition
  rw [h]
  simp [ht]

theorem tickPosition_touch_eq (now : Nat) (c : Rat) (pos : Position) (t : Nat)
    (h : pos.lastUpdate = some t) (ht : t ≠ 0) :
    tickPosition now c pos =
      { pos with
          currentPrice := pos.currentPrice + pos.currentPrice * c
          profit :=
            if pos.type = "POSITION_TYPE_BUY" then
              pos.profit + pos.currentPrice * c * pos.volume
            else
              pos.profit - pos.currentPrice * c * pos.volume
          tickDirection :=
            if 0 < pos.currentPrice * c then some Dir.up
            else if pos.currentPrice * c < 0 then some Dir.down
            else none
          lastTickTime := some now
          isRealData := some false } := by
  unfold tickPosition
  rw [h]
  simp [ht]

theorem tickPosition_lastUpdate (now : Nat) (c : Rat) (pos : Position) :
    (tickPosition now c pos).lastUpdate = pos.lastUpdate := by
  cases hl : pos.lastUpdate with
  | none =>
    rw [tickPosition_eq_none now c pos hl]
    exact hl
  | some t =>
    by_cases ht : t = 0
    · rw [tickPosition_eq_zero now c pos t hl ht]
      exact hl
    · rw [tickPosition_touch_eq now c pos t hl ht]
      exact hl

theorem tickPosition_touched (now : Nat) (c : Rat) (pos : Position)
    (h : tickPosition now c pos ≠ pos) : (tickPosition now c pos).isRealData = some false := by
  cases hl : pos.lastUpdate with
  | none => exact absurd (tickPosition_eq_none now c pos hl) h
  | some t =>
    by_cases ht : t = 0
    · exact absurd (tickPosition_eq_zero now c pos t hl ht) h
    · rw [tickPosition_touch_eq now c pos t hl ht]

theorem tickPosition_isRealData_true (now : Nat) (c : Rat) (pos : Position)
    (h : (tickPosition now c pos).isRealData = some true) : pos.isRealData = some true := by
  cases hl : pos.lastUpdate with
  | none => rwa [tickPosition_eq_none now c pos hl] at h
  | some t =>
    by_cases ht : t = 0
    · rwa [tickPosition_eq_zero now c pos t hl ht] at h
    · rw [tickPosition_touch_eq now c pos t hl ht] at h
      simp at h

theorem mem_tickPositionsFrom {now : Nat} {pct : Nat → Rat} {q : Position}
    {i : Nat} {ps : List Position} (h : q ∈ tickPositionsFrom now pct i ps) :
    ∃ p ∈ ps, ∃ c, q = tickPosition now c p := by
  induction ps generalizing i with
  | nil => simp [tickPositionsFrom] at h
  | cons p tl ih =>
    simp only [tickPositionsFrom, List.mem_cons] at h
    rcases h with h | h
    · exact ⟨p, List.mem_cons_self p tl, pct i, h⟩
    · obtain ⟨p', hp', c, hc⟩ := ih h
      exact ⟨p', List.mem_cons_of_mem _ hp', c, hc⟩

theorem tickAccount_cases (now : Nat) (selected : String) (pct : Nat → Rat) (a : AccountData) :
    tickAccount now selected pct a = a ∨
    ∃ ps, a.positions = some ps ∧
      tickAccount now selected pct a
        = { a with positions := some (tickPositionsFrom now pct 0 ps) } := by
  unfold tickAccount
  by_cases hs : a.accountId ≠ selected
  · simp [hs]
  · rw [if_neg (by simpa using hs)]
    cases hp : a.positions with
    | none => exact Or.inl rfl
    | some ps =>
      by_cases hl : ps.length = 0
      · simp [hl]
      · simp only [if_neg hl]
        exact Or.inr ⟨ps, rfl, rfl⟩

theorem mem_tickStep {now : Nat} {selected : String} {pct : Nat → Nat → Rat} {a' : AccountData}
    {ai : Nat} {accounts : List AccountData} (h : a' ∈ tickStep now selected pct ai accounts) :
    ∃ a ∈ accounts, ∃ f, a' = tickAccount now selected f a := by
  induction accounts generalizing ai with
  | nil => simp [tickStep] at h
  | cons a tl ih =>
    simp only [tickStep, List.mem_cons] at h
    rcases h with h | h
    · exact ⟨a, List.mem_cons_self _ _, pct ai, h⟩
    · obtain ⟨b, hb, f, hf⟩ := ih h
      exact ⟨b, List.mem_cons_of_mem _ hb, f, hf⟩

/-- C2: an interpolation tick leaves every position without a `lastUpdate`
unchanged; it never changes any position's `lastUpdate`; every position it
does touch comes out marked `isRealData = false`; hence the whole tick
preserves the invariant that a real-data position carries a
`lastUpdate`. -/
theorem interpolation_invariant :
    (∀ (now : Nat) (c : Rat) (pos : Position),
      pos.lastUpdate = none → tickPosition now c pos = pos) ∧
    (∀ (now : Nat) (c : Rat) (pos : Position),
      (tickPosition now c pos).lastUpdate = pos.lastUpdate) ∧
    (∀ (now : Nat) (c : Rat) (pos : Position),
      tickPosition now c pos ≠ pos → (tickPosition now c pos).isRealData = some false) ∧
    (∀ (now : Nat) (selected : String) (pct : Nat → Nat → Rat) (ai : Nat)
      (accounts : List AccountData),
      RealDataInv accounts → RealDataInv (tickStep now selected pct ai accounts)) := by
  refine ⟨fun now c pos h => by simp [tickPosition, h],
    tickPosition_lastUpdate, tickPosition_touched, ?_⟩
  intro now selected pct ai accounts hinv
  intro a' ha' p' hp' hreal
  obtain ⟨a, ha, f, hf⟩ := mem_tickStep ha'
  subst hf
  rcases tickAccount_cases now selected f a with hcase | ⟨ps, hps, hcase⟩
  · rw [hcase] at hp'
    exact hinv a ha p' hp' hreal
  · rw [hcase] at hp'
    have hp'' : p' ∈ tickPositionsFrom now f 0 ps := hp'
    obtain ⟨p, hp, c, hc⟩ := mem_tickPositionsFrom hp''
    subst hc
    rw [tickPosition_lastUpdate]
    exact hinv a ha p (by rw [hps]; exact hp) (tickPosition_isRealData_true now c p hreal)

/-- Witness for C2: an untouched position, a touched one, and a concrete
store before and after a tick. -/
theorem interpolation_invariant_witness :
    (samplePosNoUpdate.lastUpdate = none ∧
      tickPosition 5 1 samplePosNoUpdate = samplePosNoUpdate) ∧
    ((tickPosition 5 1 samplePos).lastUpdate = samplePos.lastUpdate) ∧
    (tickPosition 5 1 samplePos ≠ samplePos ∧
      (tickPosition 5 1 samplePos).isRealData = some false) ∧
    (RealDataInv [sampleAccount] ∧
      RealDataInv (tickStep 5 "acct" (fun _ _ => 1) 0 [sampleAccount])) := by
  have hne : tickPosition 5 1 samplePos ≠ samplePos := fun h =>
    absurd (congrArg Position.lastTickTime h) (by decide)
  have hinv : RealDataInv [sampleAccount] := by
    unfold RealDataInv
    decide
  exact ⟨⟨rfl, interpolation_invariant.1 5 1 samplePosNoUpdate rfl⟩,
    interpolation_invariant.2.1 5 1 samplePos,
    ⟨hne, interpolation_invariant.2.2.1 5 1 samplePos hne⟩,
    ⟨hinv, interpolation_invariant.2.2.2 5 "acct" (fun _ _ => 1) 0 [sampleAccount] hinv⟩⟩

/-! ## C3: profit arithmetic of one interpolation tick -/

/-- C3 (amended: `lastUpdate` present and nonzero, since the code's
truthiness guard also skips a zero timestamp): a tick with price delta
`d = currentPrice * changePercent` adds `d * volume` to a buy position's
profit and subtracts it from a sell position's profit (strictly
monotone for `d > 0` and positive volume), and sets `tickDirection` by
the sign of `d`. -/
theorem interpolation_tick_spec (now : Nat) (c : Rat) (pos : Position) (t : Nat)
    (hl : pos.lastUpdate = some t) (ht : t ≠ 0) :
    (pos.type = "POSITION_TYPE_BUY" →
      (tickPosition now c pos).profit = pos.profit + pos.currentPrice * c * pos.volume) ∧
    (pos.type = "POSITION_TYPE_SELL" →
      (tickPosition now c pos).profit = pos.profit - pos.currentPrice * c * pos.volume) ∧
    (0 < pos.currentPrice * c → 0 < pos.volume → pos.type = "POSITION_TYPE_BUY" →
      pos.profit < (tickPosition now c pos).profit) ∧
    (0 < pos.currentPrice * c → 0 < pos.volume → pos.type = "POSITION_TYPE_SELL" →
      (tickPosition now c pos).profit < pos.profit) ∧
    (tickPosition now c pos).tickDirection =
      (if 0 < pos.currentPrice * c then some Dir.up
       else if pos.currentPrice * c < 0 then some Dir.down
       else none) := by
  rw [tickPosition_touch_eq now c pos t hl ht]
  refine ⟨?_, ?_, ?_, ?_, rfl⟩
  · intro hb
    simp [hb]
  · intro hs
    have hne : pos.type ≠ "POSITION_TYPE_BUY" := by
      rw [hs]
      decide
    simp [hne]
  · intro hd hv hb
    simp only [hb, if_pos rfl]
    show pos.profit < pos.profit + pos.currentPrice * c * pos.volume
    exact lt_add_of_pos_right _ (mul_pos hd hv)
  · intro hd hv hs
    have hne : pos.type ≠ "POSITION_TYPE_BUY" := by
      rw [hs]
      decide
    simp only [if_neg hne]
    show pos.profit - pos.currentPrice * c * pos.volume < pos.profit
    exact sub_lt_self _ (mul_pos hd hv)

/-- Witness for C3 at a concrete buy position with `d = 1 > 0`. -/
theorem interpolation_tick_spec_witness :
    (samplePos.lastUpdate = some 100 ∧ (100 : Nat) ≠ 0 ∧
      samplePos.type = "POSITION_TYPE_BUY" ∧
      0 < samplePos.currentPrice * 1 ∧ 0 < samplePos.volume) ∧
    (tickPosition 5 1 samplePos).profit
      = samplePos.profit + samplePos.currentPrice * 1 * samplePos.volume ∧
    samplePos.profit < (tickPosition 5 1 samplePos).profit := by
  have hd : 0 < samplePos.currentPrice * 1 := by simp [samplePos]
  have hv : 0 < samplePos.volume := by simp [samplePos]
  have h := interpolation_tick_spec 5 1 samplePos 100 rfl (by decide)
  exact ⟨⟨rfl, by decide, rfl, hd, hv⟩, h.1 rfl, h.2.2.1 hd hv rfl⟩

/-- C3 counterexample: a position whose `lastUpdate` is present but equal
to 0 is skipped entirely by the tick (JS falsiness), so its profit is not
moved by `d * volume` and its tick direction is not set. -/
theorem interpolation_tick_cex :
    samplePosZeroStamp.lastUpdate.isSome = true ∧
    samplePosZeroStamp.type = "POSITION_TYPE_BUY" ∧
    0 < samplePosZeroStamp.currentPrice * 1 ∧
    (tickPosition 5 1 samplePosZeroStamp).profit ≠
      samplePosZeroStamp.profit + samplePosZeroStamp.currentPrice * 1 * samplePosZeroStamp.volume ∧
    (tickPosition 5 1 samplePosZeroStamp).tickDirection = none := by
  refine ⟨rfl, rfl, by norm_num [samplePosZeroStamp], ?_, by decide⟩
  norm_num [tickPosition, samplePosZeroStamp]

/-! ## C1: the positionUpdated event -/

/-- C1 (amended: the payload's `currentPrice`, when supplied, is nonzero —
a zero payload price is falsy in JS, so the comparison falls back to the
old price and yields `priceChange = null` even though the zero still
overwrites `currentPrice`): processing a `positionUpdated` event for a
matching account and position puts the updated position in the store;
`priceChange` compares the new current price with the previous one
(strictly greater: up, strictly less: down, else null), all supplied
payload fields (profit taken directly) overwrite the old ones,
`lastUpdate` is the processing time, `tickDirection` is cleared and
`isRealData` is set. -/
theorem positionUpdated_spec (now : Nat) (aid pid : String) (patch : PositionPatch)
    (accounts : List AccountData) (a : AccountData) (pos : Position)
    (ha : a ∈ accounts) (haid : a.accountId = aid)
    (hpos : pos ∈ a.positions.getD []) (hid : pos.id = pid)
    (hcp : patch.currentPrice ≠ some 0) :
    (∃ a' ∈ updatePositionUpdated now aid pid patch accounts,
      a'.accountId = aid ∧ posUpdateOne now pid patch pos ∈ a'.positions.getD []) ∧
    (posUpdateOne now pid patch pos).currentPrice = patch.currentPrice.getD pos.currentPrice ∧
    (posUpdateOne now pid patch pos).priceChange =
      (if pos.currentPrice < patch.currentPrice.getD pos.currentPrice then some Dir.up
       else if patch.currentPrice.getD pos.currentPrice < pos.currentPrice then some Dir.down
       else none) ∧
    (posUpdateOne now pid patch pos).id = patch.id.getD pos.id ∧
    (posUpdateOne now pid patch pos).symbol = patch.symbol.getD pos.symbol ∧
    (posUpdateOne now pid patch pos).type = patch.type.getD pos.type ∧
    (posUpdateOne now pid patch pos).volume = patch.volume.getD pos.volume ∧
    (posUpdateOne now pid patch pos).openPrice = patch.openPrice.getD pos.openPrice ∧
    (posUpdateOne now pid patch pos).profit = patch.profit.getD pos.profit ∧
    (posUpdateOne now pid patch pos).lastUpdate = some now ∧
    (posUpdateOne now pid patch pos).tickDirection = none ∧
    (posUpdateOne now pid patch pos).isRealData = some true := by
  constructor
  · have hmem : posUpdateAccount now aid pid patch a
        ∈ updatePositionUpdated now aid pid patch accounts :=
      List.mem_map_of_mem _ ha
    have heq : posUpdateAccount now aid pid patch a
        = { a with
              positions := some ((a.positions.getD []).map (posUpdateOne now pid patch)) } := by
      unfold posUpdateAccount
      rw [if_pos haid]
    rw [heq] at hmem
    refine ⟨_, hmem, haid, ?_⟩
    exact List.mem_map_of_mem _ hpos
  · cases hc : patch.currentPrice with
    | none =>
      simp [posUpdateOne, hid, PositionPatch.applyTo, hc]
    | some c =>
      have hc0 : c ≠ 0 := fun h => hcp (by rw [hc, h])
      simp [posUpdateOne, hid, PositionPatch.applyTo, hc, hc0]

/-- Witness for C1 at a concrete store: a price rise from 1 to 2. -/
theorem positionUpdated_spec_witness :
    (sampleAccount ∈ [sampleAccount] ∧ sampleAccount.accountId = "acct" ∧
      samplePos ∈ sampleAccount.positions.getD [] ∧ samplePos.id = "p1" ∧
      samplePatchTwo.currentPrice ≠ some 0) ∧
    (∃ a' ∈ updatePositionUpdated 7 "acct" "p1" samplePatchTwo [sampleAccount],
      a'.accountId = "acct" ∧ posUpdateOne 7 "p1" samplePatchTwo samplePos ∈ a'.positions.getD []) ∧
    (posUpdateOne 7 "p1" samplePatchTwo samplePos).priceChange =
      (if samplePos.currentPrice < samplePatchTwo.currentPrice.getD samplePos.currentPrice
       then some Dir.up
       else if samplePatchTwo.currentPrice.getD samplePos.currentPrice < samplePos.currentPrice
       then some Dir.down
       else none) ∧
    (posUpdateOne 7 "p1" samplePatchTwo samplePos).isRealData = some true := by
  have h := positionUpdated_spec 7 "acct" "p1" samplePatchTwo [sampleAccount] sampleAccount
    samplePos (by decide) rfl (by decide) rfl (by decide)
  exact ⟨⟨by decide, rfl, by decide, rfl, by decide⟩, h.1, h.2.2.1, h.2.2.2.2.2.2.2.2.2.2.2⟩

/-- C1 counterexample: a payload that sets the current price to 0 lowers
the stored current price (1 becomes 0) yet yields `priceChange = null`
instead of the claimed `down`, because the JS comparison treats the falsy
0 as "no new price". -/
theorem positionUpdated_cex :
    samplePatchZero.currentPrice = some 0 ∧
    (posUpdateOne 7 "p1" samplePatchZero samplePos).currentPrice < samplePos.currentPrice ∧
    (posUpdateOne 7 "p1" samplePatchZero samplePos).priceChange ≠ some Dir.down := by
  exact ⟨rfl, by decide, by decide⟩

/-! ## C6: idempotence of the keyed upserts -/

theorem setPriceChange_none_eq {q : Position} (h : q.priceChange = none) :
    ({ q with priceChange := none } : Position) = q := by
  cases q
  simp only at h
  rw [h]

theorem posUpdateOne_id (now : Nat) (pid : String) (patch : PositionPatch) (pos : Position)
    (hpatchid : patch.id.getD pid = pid) (hid : pos.id = pid) :
    (posUpdateOne now pid patch pos).id = pid := by
  rw [posUpdateOne, if_pos hid]
  show patch.id.getD pos.id = pid
  rw [hid]
  exact hpatchid

theorem getD_getD {α : Type} (o : Option α) (x : α) : o.getD (o.getD x) = o.getD x := by
  cases o <;> rfl

theorem posUpdateOne_twice (now : Nat) (pid : String) (patch : PositionPatch) (pos : Position)
    (hpatchid : patch.id.getD pid = pid) (hid : pos.id = pid) :
    posUpdateOne now pid patch (posUpdateOne now pid patch pos)
      = { posUpdateOne now pid patch pos with priceChange := none } := by
  cases hc : patch.currentPrice with
  | none =>
    simp [posUpdateOne, hid, hpatchid, getD_getD, PositionPatch.applyTo, hc]
  | some c =>
    by_cases hc0 : c = 0
    · simp [posUpdateOne, hid, hpatchid, getD_getD, PositionPatch.applyTo, hc, hc0]
    · simp [posUpdateOne, hid, hpatchid, getD_getD, PositionPatch.applyTo, hc, hc0]

theorem posUpdateOne_unmatched (now : Nat) (pid : String) (patch : PositionPatch)
    (pos : Position) (hid : pos.id ≠ pid) : posUpdateOne now pid patch pos = pos := by
  unfold posUpdateOne
  rw [if_neg hid]

theorem posUpdateOne_twice_list (now : Nat) (pid : String) (patch : PositionPatch)
    (hpatchid : patch.id.getD pid = pid) (ps : List Position) :
    (ps.map (posUpdateOne now pid patch)).map (posUpdateOne now pid patch)
      = (ps.map (posUpdateOne now pid patch)).map
          (fun p => if p.id = pid then { p with priceChange := none } else p) := by
  rw [List.map_map, List.map_map]
  apply List.map_congr_left
  intro p _
  show posUpdateOne now pid patch (posUpdateOne now pid patch p)
    = if (posUpdateOne now pid patch p).id = pid
      then { posUpdateOne now pid patch p with priceChange := none }
      else posUpdateOne now pid patch p
  by_cases hp : p.id = pid
  · rw [if_pos (posUpdateOne_id now pid patch p hpatchid hp),
      posUpdateOne_twice now pid patch p hpatchid hp]
  · rw [posUpdateOne_unmatched now pid patch p hp, if_neg hp,
      posUpdateOne_unmatched now pid patch p hp]

theorem posUpdateAccount_twice (now : Nat) (aid pid : String) (patch : PositionPatch)
    (hpatchid : patch.id.getD pid = pid) (a : AccountData) :
    posUpdateAccount now aid pid patch (posUpdateAccount now aid pid patch a)
      = clearPriceChangeAccount aid pid (posUpdateAccount now aid pid patch a) := by
  by_cases hs : a.accountId = aid
  · have h1 : posUpdateAccount now aid pid patch a
        = { a with
              positions := some ((a.positions.getD []).map (posUpdateOne now pid patch)) } := by
      unfold posUpdateAccount
      rw [if_pos hs]
    rw [h1]
    unfold posUpdateAccount clearPriceChangeAccount
    rw [if_pos (show AccountData.accountId
        { a with positions := some ((a.positions.getD []).map (posUpdateOne now pid patch)) }
        = aid from hs)]
    rw [if_pos (show AccountData.accountId
        { a with positions := some ((a.positions.getD []).map (posUpdateOne now pid patch)) }
        = aid from hs)]
    show ({ a with
        positions := some (((a.positions.getD []).map (posUpdateOne now pid patch)).map
          (posUpdateOne now pid patch)) } : AccountData)
      = { a with
          positions := some (((a.positions.getD []).map (posUpdateOne now pid patch)).map
            (fun p => if p.id = pid then { p with priceChange := none } else p)) }
    exact congrArg
      (fun l => { a with positions := some l } : List Position → AccountData)
      (posUpdateOne_twice_list now pid patch hpatchid (a.positions.getD []))
  · have h1 : posUpdateAccount now aid pid patch a = a := by
      unfold posUpdateAccount
      rw [if_neg hs]
    rw [h1, h1]
    unfold clearPriceChangeAccount
    rw [if_neg hs]

/-- C6 (amended: the account-metadata upsert is idempotent, and the
position upsert applied twice equals applying it once except that the
matched position's derived `priceChange` collapses to `null` on the second
application, because the comparison then runs against the already
overwritten price; it is fully idempotent exactly when the first
application already produced `priceChange = null`). -/
theorem upsert_idempotent (now : Nat) (aid pid : String) (info : Option AccountInfo)
    (patch : PositionPatch) (pos : Position) (accounts : List AccountData)
    (hpatchid : patch.id.getD pid = pid) :
    (updateAccountInfo aid info (updateAccountInfo aid info accounts)
      = updateAccountInfo aid info accounts) ∧
    (pos.id = pid →
      posUpdateOne now pid patch (posUpdateOne now pid patch pos)
        = { posUpdateOne now pid patch pos with priceChange := none }) ∧
    (pos.id = pid → (posUpdateOne now pid patch pos).priceChange = none →
      posUpdateOne now pid patch (posUpdateOne now pid patch pos)
        = posUpdateOne now pid patch pos) ∧
    (updatePositionUpdated now aid pid patch (updatePositionUpdated now aid pid patch accounts)
      = clearPriceChange aid pid (updatePositionUpdated now aid pid patch accounts)) := by
  refine ⟨?_, ?_, ?_, ?_⟩
  · unfold updateAccountInfo
    rw [List.map_map]
    apply List.map_congr_left
    intro a _
    by_cases hs : a.accountId = aid
    · cases info with
      | none => simp [hs]
      | some i => simp [hs]
    · simp [hs]
  · intro hid
    exact posUpdateOne_twice now pid patch pos hpatchid hid
  · intro hid hpc
    rw [posUpdateOne_twice now pid patch pos hpatchid hid]
    exact setPriceChange_none_eq hpc
  · unfold updatePositionUpdated clearPriceChange
    rw [List.map_map, List.map_map]
    apply List.map_congr_left
    intro a _
    exact posUpdateAccount_twice now aid pid patch hpatchid a

/-- Witness for C6 at a concrete store: the same price-raising upsert
applied twice. -/
theorem upsert_idempotent_witness :
    (samplePatchTwo.id.getD "p1" = "p1" ∧ samplePos.id = "p1") ∧
    (updateAccountInfo "acct" none (updateAccountInfo "acct" none [sampleAccount])
      = updateAccountInfo "acct" none [sampleAccount]) ∧
    (posUpdateOne 7 "p1" samplePatchTwo (posUpdateOne 7 "p1" samplePatchTwo samplePos)
      = { posUpdateOne 7 "p1" samplePatchTwo samplePos with priceChange := none }) ∧
    (updatePositionUpdated 7 "acct" "p1" samplePatchTwo
        (updatePositionUpdated 7 "acct" "p1" samplePatchTwo [sampleAccount])
      = clearPriceChange "acct" "p1"
          (updatePositionUpdated 7 "acct" "p1" samplePatchTwo [sampleAccount])) := by
  have h := upsert_idempotent 7 "acct" "p1" none samplePatchTwo samplePos [sampleAccount]
    (by decide)
  exact ⟨⟨by decide, rfl⟩, h.1, h.2.1 rfl, h.2.2.2⟩

/-- C6 counterexample: applying the same `positionUpdated` upsert twice
does not yield the same store: the first application sets
`priceChange = up` (price 1 to 2), the second recomputes it against the
already-updated price and stores `priceChange = null`. -/
theorem upsert_idempotent_cex :
    updatePositionUpdated 7 "acct" "p1" samplePatchTwo
        (updatePositionUpdated 7 "acct" "p1" samplePatchTwo [sampleAccount])
      ≠ updatePositionUpdated 7 "acct" "p1" samplePatchTwo [sampleAccount] := by
  decide

/-! ## C10: the sparkline renderer is total and normalized -/

theorem le_foldl_max (xs : List Rat) : ∀ a : Rat, a ≤ xs.foldl max a := by
  induction xs with
  | nil =>
    intro a
    simp
  | cons x tl ih =>
    intro a
    exact le_trans (le_max_left a x) (ih (max a x))

theorem mem_le_foldl_max (xs : List Rat) : ∀ (a v : Rat), v ∈ xs → v ≤ xs.foldl max a := by
  induction xs with
  | nil =>
    intro a v h
    simp at h
  | cons x tl ih =>
    intro a v h
    rcases List.mem_cons.mp h with h | h
    · subst h
      exact le_trans (le_max_right a v) (le_foldl_max tl _)
    · exact ih _ v h

theorem foldl_min_le (xs : List Rat) : ∀ a : Rat, xs.foldl min a ≤ a := by
  induction xs with
  | nil =>
    intro a
    simp
  | cons x tl ih =>
    intro a
    exact le_trans (ih (min a x)) (min_le_left a x)

theorem foldl_min_le_mem (xs : List Rat) : ∀ (a v : Rat), v ∈ xs → xs.foldl min a ≤ v := by
  induction xs with
  | nil =>
    intro a v h
    simp at h
  | cons x tl ih =>
    intro a v h
    rcases List.mem_cons.mp h with h | h
    · subst h
      exact le_trans (foldl_min_le tl _) (min_le_right a v)
    · exact ih _ v h

theorem listMin_le_mem {l : List Rat} {v : Rat} (h : v ∈ l) : listMin l ≤ v := by
  cases l with
  | nil => simp at h
  | cons x xs =>
    unfold listMin
    rcases List.mem_cons.mp h with h | h
    · subst h
      exact foldl_min_le xs v
    · exact foldl_min_le_mem xs x v h

theorem mem_le_listMax {l : List Rat} {v : Rat} (h : v ∈ l) : v ≤ listMax l := by
  cases l with
  | nil => simp at h
  | cons x xs =>
    unfold listMax
    rcases List.mem_cons.mp h with h | h
    · subst h
      exact le_foldl_max xs v
    · exact mem_le_foldl_max xs x v h

theorem listMin_le_listMax (l : List Rat) : listMin l ≤ listMax l := by
  cases l with
  | nil => exact le_refl 0
  | cons x xs =>
    unfold listMin listMax
    exact le_trans (foldl_min_le xs x) (le_foldl_max xs x)

theorem sparkRange_pos (data : List Rat) : 0 < sparkRange data := by
  unfold sparkRange
  by_cases h : listMax data - listMin data = 0
  · rw [if_pos h]
    norm_num
  · rw [if_neg h]
    exact lt_of_le_of_ne (sub_nonneg.mpr (listMin_le_listMax data)) (Ne.symm h)

theorem sparkPointsFrom_length (n : Nat) (mn r : Rat) :
    ∀ (i : Nat) (vs : List Rat), (sparkPointsFrom n mn r i vs).length = vs.length := by
  intro i vs
  induction vs generalizing i with
  | nil => rfl
  | cons v tl ih => simp [sparkPointsFrom, ih]

theorem sparkPointsFrom_bounds (n : Nat) (mn mx r : Rat)
    (hn : 2 ≤ n) (hmn : mn ≤ mx)
    (hr : r = if mx - mn = 0 then 1 else mx - mn) :
    ∀ (i : Nat) (vs : List Rat), i + vs.length = n →
      (∀ v ∈ vs, mn ≤ v ∧ v ≤ mx) →
      ∀ pt ∈ sparkPointsFrom n mn r i vs,
        0 ≤ pt.1 ∧ pt.1 ≤ 100 ∧ 0 ≤ pt.2 ∧ pt.2 ≤ 100 := by
  intro i vs
  induction vs generalizing i with
  | nil =>
    intro _ _ pt hpt
    simp [sparkPointsFrom] at hpt
  | cons v tl ih =>
    intro hlen hb pt hpt
    simp only [sparkPointsFrom, List.mem_cons] at hpt
    rcases hpt with hpt | hpt
    · subst hpt
      have hn1 : (0 : Rat) < (n : Rat) - 1 := by
        have h2 : (2 : Rat) ≤ (n : Rat) := by exact_mod_cast hn
        linarith
      have hi : (i : Rat) ≤ (n : Rat) - 1 := by
        have hle : i + 1 ≤ n := by
          simp only [List.length_cons] at hlen
          omega
        have : (i : Rat) + 1 ≤ (n : Rat) := by exact_mod_cast hle
        linarith
      have hx0 : (0 : Rat) ≤ (i : Rat) / ((n : Rat) - 1) :=
        div_nonneg (Nat.cast_nonneg i) (le_of_lt hn1)
      have hx1 : (i : Rat) / ((n : Rat) - 1) ≤ 1 := (div_le_one hn1).mpr hi
      obtain ⟨hv1, hv2⟩ := hb v (List.mem_cons_self v tl)
      have hq : 0 ≤ (v - mn) / r ∧ (v - mn) / r ≤ 1 := by
        by_cases h0 : mx - mn = 0
        · have hmx : mx = mn := by linarith
          have hveq : v = mn := le_antisymm (hmx ▸ hv2) hv1
          rw [hveq]
          simp
        · have hrpos : 0 < r := by
            rw [hr, if_neg h0]
            exact lt_of_le_of_ne (sub_nonneg.mpr hmn) (Ne.symm h0)
          have hvr : v - mn ≤ r := by
            rw [hr, if_neg h0]
            linarith
          exact ⟨div_nonneg (by linarith) hrpos.le, (div_le_one hrpos).mpr hvr⟩
      obtain ⟨hq0, hq1⟩ := hq
      refine ⟨by positivity, ?_, ?_, ?_⟩
      · nlinarith
      · nlinarith
      · nlinarith
    · refine ih (i + 1) ?_ (fun w hw => hb w (List.mem_cons_of_mem _ hw)) pt hpt
      simp only [List.length_cons] at hlen
      omega

/-- C10: the sparkline renderer is total and pure: fewer than two samples
yield no polyline; otherwise it emits one point per sample with both
coordinates inside [0, 100]; and the normalization denominator is
guarded away from zero even when all samples are equal. -/
theorem sparkline_spec :
    (∀ data : List Rat, data.length < 2 → sparkPoints data = none) ∧
    (∀ data : List Rat, 2 ≤ data.length →
      ∃ pts, sparkPoints data = some pts ∧ pts.length = data.length ∧
        ∀ pt ∈ pts, 0 ≤ pt.1 ∧ pt.1 ≤ 100 ∧ 0 ≤ pt.2 ∧ pt.2 ≤ 100) ∧
    (∀ data : List Rat, 0 < sparkRange data) := by
  refine ⟨?_, ?_, sparkRange_pos⟩
  · intro data h
    simp [sparkPoints, h]
  · intro data h
    have hlt : ¬data.length < 2 := by omega
    refine ⟨sparkPointsFrom data.length (listMin data) (sparkRange data) 0 data,
      by simp [sparkPoints, hlt], sparkPointsFrom_length _ _ _ _ _, ?_⟩
    exact sparkPointsFrom_bounds data.length (listMin data) (listMax data) (sparkRange data)
      h (listMin_le_listMax data) rfl 0 data (by simp)
      (fun v hv => ⟨listMin_le_mem hv, mem_le_listMax hv⟩)

/-- Witness for C10: a single sample yields nothing, two samples yield a
bounded polyline. -/
theorem sparkline_spec_witness :
    (([5] : List Rat).length < 2 ∧ sparkPoints [5] = none) ∧
    (2 ≤ ([1, 3] : List Rat).length ∧
      ∃ pts, sparkPoints [1, 3] = some pts ∧ pts.length = ([1, 3] : List Rat).length ∧
        ∀ pt ∈ pts, 0 ≤ pt.1 ∧ pt.1 ≤ 100 ∧ 0 ≤ pt.2 ∧ pt.2 ≤ 100) :=
  ⟨⟨by decide, sparkline_spec.1 [5] (by decide)⟩,
   ⟨by decide, sparkline_spec.2.1 [1, 3] (by decide)⟩⟩

end ForexDashboard
